import Mathlib

/-!
# Verification of the conversation-processing core

Shallow embedding of `process_conversations.py`:

* `split_segments` (the Segmenter): sorts a list of `{role, text, time}`
  messages by timestamp (absent timestamp keyed as `0` via Python's
  `m.get("time") or 0`) and splits it into contiguous segments whenever
  the role changes or the known-time gap strictly exceeds the threshold.
* `reconstruct_threads` (the Thread Reconstructor): builds per-id nodes
  from the raw mapping and walks each leaf upward through `parent`
  links with a visited-set cycle guard.

Python timestamps (floats) are modelled as exact rationals `ℚ`; Python
dictionaries become association lists in insertion order; a value that can
be missing or JSON-`null` with the same observable effect becomes
`Option`; where the code distinguishes a *missing* key from a key bound to
`null` (the `msg.get("author", {})` and `msg.get("content", {})` reads),
the three states are kept apart by `JField`.  Code paths that raise a
Python exception are modelled with `Except`.
-/

namespace Luma

/-- A flat message as consumed by the Segmenter and produced by the
Thread Reconstructor: the Python dict `{"role": ..., "text": ..., "time": ...}`.
`role = none` models an absent/`None` role; `time = none` an
absent/unparsable timestamp. -/
structure Msg where
  role : Option String
  text : String
  time : Option ℚ
deriving DecidableEq, Repr

/-- Default gap threshold: `GAP_SECONDS = 30 * 60`. -/
def GAP_SECONDS : ℚ := 30 * 60

/-- Sort key of a message: Python's `m.get("time") or 0` maps an absent
time to `0` (and time `0` to `0`, the same value). -/
def sortKey (m : Msg) : ℚ :=
  m.time.getD 0

/-- The ordering used by the sort: compare messages by `sortKey`. -/
def keyLE (a b : Msg) : Prop :=
  sortKey a ≤ sortKey b

instance : DecidableRel keyLE := fun a b => inferInstanceAs (Decidable (_ ≤ _))

instance : IsTotal Msg keyLE := ⟨fun a b => le_total _ _⟩

instance : IsTrans Msg keyLE := ⟨fun _ _ _ h h2 => le_trans h h2⟩

/-- Python `sorted(messages, key=lambda m: m.get("time") or 0)`: a stable sort by
`sortKey` (any stable sort computes the same list as Python's Timsort). -/
def sortMsgs (messages : List Msg) : List Msg :=
  messages.insertionSort keyLE

/-- The time-gap test of the loop body: `True` only when both timestamps are
known and `cur.time - prev.time > gap_seconds`. -/
def timeGap (prev cur : Msg) (gap : ℚ) : Bool :=
  match prev.time, cur.time with
  | some pt, some ct => decide (ct - pt > gap)
  | _, _ => false

/-- Segment boundary test: `time_gap or role_change`, where
`role_change = prev.get("role") != cur.get("role")`. -/
def isBoundary (prev cur : Msg) (gap : ℚ) : Bool :=
  timeGap prev cur gap || decide (prev.role ≠ cur.role)

/-- The `for prev, cur in zip(messages, messages[1:])` loop: `current` is the
open segment (always non-empty, ending in `prev`); at a boundary, `current`
is emitted and a new segment `[cur]` is opened; at the end the open segment
is emitted. -/
def splitGo (gap : ℚ) (prev : Msg) (current : List Msg) : List Msg → List (List Msg)
  | [] => [current]
  | cur :: rest =>
    if isBoundary prev cur gap then
      current :: splitGo gap cur [cur] rest
    else
      splitGo gap cur (current ++ [cur]) rest

/-- Dispatch on the sorted list: an empty input yields no segments
(`if not messages: return []`); otherwise the scan starts with
`current = [messages[0]]`. -/
def splitTop (gap : ℚ) : List Msg → List (List Msg)
  | [] => []
  | m :: rest => splitGo gap m [m] rest

/-- The entry point `split_segments(messages, gap_seconds=GAP_SECONDS)`. -/
def split_segments (messages : List Msg) (gap : ℚ := GAP_SECONDS) : List (List Msg) :=
  splitTop gap (sortMsgs messages)

/-! ## Structural lemmas about the segment scan -/

/-- Flattening the scan output recovers the open segment followed by the
unscanned remainder. -/
theorem splitGo_flatten (gap : ℚ) :
    ∀ (rest : List Msg) (prev : Msg) (current : List Msg),
      (splitGo gap prev current rest).flatten = current ++ rest := by
  intro rest
  induction rest with
  | nil => intro prev current; simp [splitGo]
  | cons cur rest ih =>
    intro prev current
    by_cases hb : isBoundary prev cur gap
    · simp [splitGo, hb, ih]
    · simp [splitGo, hb, ih]

/-- The sorted input is recovered by concatenating the segments. -/
theorem splitTop_flatten (gap : ℚ) (s : List Msg) :
    (splitTop gap s).flatten = s := by
  cases s with
  | nil => simp [splitTop]
  | cons m rest => simp [splitTop, splitGo_flatten]

/-- The sort is a permutation of the input. -/
theorem sortMsgs_perm (l : List Msg) : (sortMsgs l).Perm l :=
  List.perm_insertionSort keyLE l

/-- The first segment the scan emits extends the open segment `current`. -/
theorem splitGo_head (gap : ℚ) :
    ∀ (rest : List Msg) (prev : Msg) (current : List Msg),
      ∃ t s, splitGo gap prev current rest = (current ++ t) :: s := by
  intro rest
  induction rest with
  | nil =>
    intro prev current
    exact ⟨[], [], by simp [splitGo]⟩
  | cons cur rest ih =>
    intro prev current
    by_cases hb : isBoundary prev cur gap
    · exact ⟨[], splitGo gap cur [cur] rest, by simp [splitGo, hb]⟩
    · obtain ⟨t, s, hs⟩ := ih cur (current ++ [cur])
      exact ⟨cur :: t, s, by simp [splitGo, hb, hs]⟩

/-- When the pair `a, b` is adjacent in the unscanned remainder and is *not*
a boundary, the scan puts `a` and `b` adjacent inside one segment. -/
theorem splitGo_pair_same (gap : ℚ) (a b : Msg)
    (hbd : isBoundary a b gap = false) :
    ∀ (pre post : List Msg) (prev : Msg) (current : List Msg),
      ∃ w x y z,
        splitGo gap prev current (pre ++ a :: b :: post) =
          w ++ (x ++ a :: b :: y) :: z := by
  intro pre
  induction pre with
  | nil =>
    intro post prev current
    by_cases hp : isBoundary prev a gap
    · obtain ⟨t, s, hs⟩ := splitGo_head gap post b ([a] ++ [b])
      refine ⟨[current], [], t, s, ?_⟩
      simp only [List.nil_append, splitGo, hp, if_true, hbd, if_false, hs]
      simp
    · obtain ⟨t, s, hs⟩ := splitGo_head gap post b (current ++ [a] ++ [b])
      refine ⟨[], current, t, s, ?_⟩
      simp only [List.nil_append, splitGo, hp, if_false, hbd, hs]
      simp
  | cons c pre ih =>
    intro post prev current
    by_cases hp : isBoundary prev c gap
    · obtain ⟨w, x, y, z, hs⟩ := ih post c [c]
      refine ⟨current :: w, x, y, z, ?_⟩
      simp [splitGo, hp, hs]
    · obtain ⟨w, x, y, z, hs⟩ := ih post c (current ++ [c])
      refine ⟨w, x, y, z, ?_⟩
      simp [splitGo, hp, hs]

/-- When the pair `a, b` is adjacent in the unscanned remainder and *is* a
boundary, the scan closes a segment ending in `a` and opens a new one
starting with `b`. -/
theorem splitGo_pair_split (gap : ℚ) (a b : Msg)
    (hbd : isBoundary a b gap = true) :
    ∀ (pre post : List Msg) (prev : Msg) (current : List Msg),
      ∃ w x y z,
        splitGo gap prev current (pre ++ a :: b :: post) =
          w ++ (x ++ [a]) :: (b :: y) :: z := by
  intro pre
  induction pre with
  | nil =>
    intro post prev current
    by_cases hp : isBoundary prev a gap
    · obtain ⟨t, s, hs⟩ := splitGo_head gap post b [b]
      refine ⟨[current], [], t, s, ?_⟩
      simp only [List.nil_append, splitGo, hp, if_true, hbd, hs]
      simp
    · obtain ⟨t, s, hs⟩ := splitGo_head gap post b [b]
      refine ⟨[], current, t, s, ?_⟩
      simp only [List.nil_append, splitGo, hp, if_false, hbd, hs]
      simp
  | cons c pre ih =>
    intro post prev current
    by_cases hp : isBoundary prev c gap
    · obtain ⟨w, x, y, z, hs⟩ := ih post c [c]
      refine ⟨current :: w, x, y, z, ?_⟩
      simp [splitGo, hp, hs]
    · obtain ⟨w, x, y, z, hs⟩ := ih post c (current ++ [c])
      refine ⟨w, x, y, z, ?_⟩
      simp [splitGo, hp, hs]

/-- Top-level form of `splitGo_pair_same`: a non-boundary pair adjacent in
the sorted input ends up adjacent inside one returned segment. -/
theorem split_segments_pair_same (l : List Msg) (gap : ℚ) (u v : List Msg)
    (a b : Msg) (hsort : sortMsgs l = u ++ a :: b :: v)
    (hbd : isBoundary a b gap = false) :
    ∃ w x y z,
      split_segments l gap = w ++ (x ++ a :: b :: y) :: z := by
  rw [split_segments, hsort]
  cases u with
  | nil =>
    obtain ⟨t, s, hs⟩ := splitGo_head gap v b ([a] ++ [b])
    refine ⟨[], [], t, s, ?_⟩
    simp only [List.nil_append, splitTop, splitGo, hbd, if_false, hs]
    simp
  | cons m u =>
    obtain ⟨w, x, y, z, hs⟩ :=
      splitGo_pair_same gap a b hbd u (v) m [m]
    exact ⟨w, x, y, z, hs⟩

/-- Top-level form of `splitGo_pair_split`: a boundary pair adjacent in the
sorted input is separated — one segment ends with `a`, the next starts
with `b`. -/
theorem split_segments_pair_split (l : List Msg) (gap : ℚ) (u v : List Msg)
    (a b : Msg) (hsort : sortMsgs l = u ++ a :: b :: v)
    (hbd : isBoundary a b gap = true) :
    ∃ w x y z,
      split_segments l gap = w ++ (x ++ [a]) :: (b :: y) :: z := by
  rw [split_segments, hsort]
  cases u with
  | nil =>
    obtain ⟨t, s, hs⟩ := splitGo_head gap v b [b]
    refine ⟨[], [], t, s, ?_⟩
    simp only [List.nil_append, splitTop, splitGo, hbd, if_true, hs]
    simp
  | cons m u =>
    obtain ⟨w, x, y, z, hs⟩ :=
      splitGo_pair_split gap a b hbd u (v) m [m]
    exact ⟨w, x, y, z, hs⟩

/-- C2. **Coverage**: concatenating all returned segments yields exactly the
multiset of input messages — no message is lost and none is duplicated, for
every input thread and every gap threshold. -/
theorem split_segments_coverage (messages : List Msg) (gap : ℚ) :
    ((split_segments messages gap).flatten).Perm messages := by
  rw [split_segments, splitTop_flatten]
  exact sortMsgs_perm messages

/-- The sorted list is `keyLE`-sorted. -/
theorem sortMsgs_sorted (l : List Msg) : (sortMsgs l).Sorted keyLE :=
  List.sorted_insertionSort keyLE l

/-- Shorthand for a test message. -/
def mkMsg (r : Option String) (t : Option ℚ) : Msg :=
  { role := r, text := "", time := t }

/-- Role string of concrete test inputs. -/
def roleUser : String := "user"

/-- Second role string of concrete test inputs. -/
def roleAssistant : String := "assistant"

/-- C3 counterexample: the sort key is `m.get("time") or 0`, i.e. `0` for an
absent time — not the minimum possible value.  A message with known negative
time `-1` is placed *before* (hence earlier than) the absent-time message,
so the absent-time message is placed later than a message with a known
time, refuting the claim at this concrete input. -/
theorem sort_absent_time_after_negative :
    sortMsgs [mkMsg (some roleUser) (some (-1)), mkMsg (some roleUser) none] =
        [mkMsg (some roleUser) (some (-1)), mkMsg (some roleUser) none] ∧
      (mkMsg (some roleUser) (some (-1))).time = some (-1) ∧
      (mkMsg (some roleUser) none).time = none := by
  refine ⟨?_, rfl, rfl⟩
  decide

/-- C3 (amended). In `split_segments` the input messages are first sorted by
time with an absent/unknown time keyed as `0` (not as the minimum possible
value); consequently every message with an absent time is placed no later in
the sorted order than any message with a known **positive** time, while
messages with negative known times may precede it. -/
theorem sort_absent_time_as_zero (l : List Msg) (i j : ℕ)
    (hi : i < (sortMsgs l).length) (hj : j < (sortMsgs l).length)
    (hA : ((sortMsgs l).get ⟨i, hi⟩).time = none) (t : ℚ)
    (hB : ((sortMsgs l).get ⟨j, hj⟩).time = some t) (ht : 0 < t) :
    i < j := by
  by_contra hij
  rcases Nat.lt_or_ge j i with hji | hge
  · have hrel := (sortMsgs_sorted l).rel_get_of_lt
      (a := ⟨j, hj⟩) (b := ⟨i, hi⟩) (Fin.mk_lt_mk.mpr hji)
    rw [keyLE, sortKey, sortKey, hA, hB] at hrel
    simp only [Option.getD] at hrel
    exact absurd hrel (not_le.mpr ht)
  · have hij2 : i = j := le_antisymm hge (Nat.le_of_not_lt hij)
    subst hij2
    rw [hA] at hB
    exact Option.noConfusion hB

/-- C3 amended witness: in `[absent, time 5]` the absent-time message is
placed at index 0, before the known-positive-time message at index 1. -/
theorem sort_absent_time_as_zero_witness : (0 : ℕ) < 1 :=
  sort_absent_time_as_zero [mkMsg (some roleUser) none, mkMsg (some roleUser) (some 5)]
    0 1 (by decide) (by decide) (by decide) 5 (by decide) (by norm_num)

/-- C4. **Strict gap comparison**: for two consecutive sorted messages with
the same role and known times, a difference exactly equal to `gap` keeps
them adjacent in one segment, while a difference strictly greater than `gap`
closes the segment at `prev` and starts a new segment at `cur`. -/
theorem split_gap_strict (l : List Msg) (gap : ℚ) (u v : List Msg)
    (a b : Msg) (pt ct : ℚ) (hsort : sortMsgs l = u ++ a :: b :: v)
    (hrole : a.role = b.role) (hpt : a.time = some pt) (hct : b.time = some ct) :
    (ct - pt = gap →
      ∃ w x y z, split_segments l gap = w ++ (x ++ a :: b :: y) :: z) ∧
    (gap < ct - pt →
      ∃ w x y z, split_segments l gap = w ++ (x ++ [a]) :: (b :: y) :: z) := by
  constructor
  · intro heq
    refine split_segments_pair_same l gap u v a b hsort ?_
    simp [isBoundary, timeGap, hpt, hct, hrole, heq]
  · intro hgt
    refine split_segments_pair_split l gap u v a b hsort ?_
    simp [isBoundary, timeGap, hpt, hct, hgt]

/-- C4 witness: with threshold `1800`, times `0` and `1800` (equal gap, same
role) stay in one segment; times `0` and `1801` are split. -/
theorem split_gap_strict_witness :
    (∃ w x y z,
      split_segments [mkMsg (some roleUser) (some 0), mkMsg (some roleUser) (some 1800)] 1800 =
        w ++ (x ++ mkMsg (some roleUser) (some 0) :: mkMsg (some roleUser) (some 1800) :: y) :: z) ∧
    (∃ w x y z,
      split_segments [mkMsg (some roleUser) (some 0), mkMsg (some roleUser) (some 1801)] 1800 =
        w ++ (x ++ [mkMsg (some roleUser) (some 0)]) :: (mkMsg (some roleUser) (some 1801) :: y) :: z) := by
  constructor
  · exact (split_gap_strict
      [mkMsg (some roleUser) (some 0), mkMsg (some roleUser) (some 1800)] 1800
      [] [] (mkMsg (some roleUser) (some 0)) (mkMsg (some roleUser) (some 1800))
      0 1800 (by decide) rfl rfl rfl).1 (by norm_num)
  · exact (split_gap_strict
      [mkMsg (some roleUser) (some 0), mkMsg (some roleUser) (some 1801)] 1800
      [] [] (mkMsg (some roleUser) (some 0)) (mkMsg (some roleUser) (some 1801))
      0 1801 (by decide) rfl rfl rfl).2 (by norm_num)

/-- C5. **Role-change split**: two consecutive sorted messages with
different roles (`Option String` inequality, so an absent role is a value
distinct from every present role) are always separated — one segment ends
with `prev`, the next starts at `cur` — regardless of their timestamps. -/
theorem split_role_change (l : List Msg) (gap : ℚ) (u v : List Msg)
    (a b : Msg) (hsort : sortMsgs l = u ++ a :: b :: v)
    (hrole : a.role ≠ b.role) :
    ∃ w x y z, split_segments l gap = w ++ (x ++ [a]) :: (b :: y) :: z := by
  refine split_segments_pair_split l gap u v a b hsort ?_
  simp [isBoundary, hrole]

/-- C5 witness: an absent role followed by role `"assistant"`, both with no
time info, are split. -/
theorem split_role_change_witness :
    ∃ w x y z,
      split_segments [mkMsg none none, mkMsg (some roleAssistant) none] 1800 =
        w ++ (x ++ [mkMsg none none]) :: (mkMsg (some roleAssistant) none :: y) :: z :=
  split_role_change [mkMsg none none, mkMsg (some roleAssistant) none] 1800
    [] [] (mkMsg none none) (mkMsg (some roleAssistant) none)
    (by decide) (by decide)

/-- C6. **Absent timestamp skips the gap check**: when at least one of the
two consecutive sorted messages has an absent time (one side or both), the
time-gap condition never triggers, so the pair is split exactly when the
roles differ: equal roles keep them adjacent in one segment, different
roles split them. -/
theorem split_absent_time_skips_gap (l : List Msg) (gap : ℚ) (u v : List Msg)
    (a b : Msg) (hsort : sortMsgs l = u ++ a :: b :: v)
    (habs : a.time = none ∨ b.time = none) :
    (a.role = b.role →
      ∃ w x y z, split_segments l gap = w ++ (x ++ a :: b :: y) :: z) ∧
    (a.role ≠ b.role →
      ∃ w x y z, split_segments l gap = w ++ (x ++ [a]) :: (b :: y) :: z) := by
  have hgap : timeGap a b gap = false := by
    rcases habs with h | h
    · cases hb : b.time <;> simp [timeGap, h, hb]
    · cases ha : a.time <;> simp [timeGap, h, ha]
  constructor
  · intro hrole
    refine split_segments_pair_same l gap u v a b hsort ?_
    simp [isBoundary, hgap, hrole]
  · intro hrole
    refine split_segments_pair_split l gap u v a b hsort ?_
    simp [isBoundary, hrole]

/-- C6 witness: an absent time next to a known time `10 ^ 6` (far beyond any
threshold) with the same role stays in one segment; with both times absent
and different roles the pair is split. -/
theorem split_absent_time_skips_gap_witness :
    (∃ w x y z,
      split_segments [mkMsg (some roleUser) none, mkMsg (some roleUser) (some 1000000)] 1800 =
        w ++ (x ++ mkMsg (some roleUser) none :: mkMsg (some roleUser) (some 1000000) :: y) :: z) ∧
    (∃ w x y z,
      split_segments [mkMsg (some roleUser) none, mkMsg (some roleAssistant) none] 1800 =
        w ++ (x ++ [mkMsg (some roleUser) none]) :: (mkMsg (some roleAssistant) none :: y) :: z) := by
  constructor
  · exact (split_absent_time_skips_gap
      [mkMsg (some roleUser) none, mkMsg (some roleUser) (some 1000000)] 1800
      [] [] (mkMsg (some roleUser) none) (mkMsg (some roleUser) (some 1000000))
      (by decide) (Or.inl rfl)).1 rfl
  · exact (split_absent_time_skips_gap
      [mkMsg (some roleUser) none, mkMsg (some roleAssistant) none] 1800
      [] [] (mkMsg (some roleUser) none) (mkMsg (some roleAssistant) none)
      (by decide) (Or.inl rfl)).2 (by decide)

/-! ## Idempotence of the Segmenter on its own output -/

/-- Every segment the scan emits is non-empty (given a non-empty open
segment). -/
theorem splitGo_ne_nil (gap : ℚ) :
    ∀ (rest : List Msg) (prev : Msg) (current : List Msg),
      current ≠ [] → ∀ seg ∈ splitGo gap prev current rest, seg ≠ [] := by
  intro rest
  induction rest with
  | nil =>
    intro prev current hc seg hseg
    simp only [splitGo, List.mem_singleton] at hseg
    exact hseg ▸ hc
  | cons cur rest ih =>
    intro prev current hc seg hseg
    by_cases hb : isBoundary prev cur gap
    · simp only [splitGo, hb, if_true, List.mem_cons] at hseg
      rcases hseg with h | h
      · exact h ▸ hc
      · exact ih cur [cur] (List.cons_ne_nil _ _) seg h
    · simp only [splitGo, hb, if_false] at hseg
      exact ih cur (current ++ [cur]) (by simp) seg hseg

/-- Inside any emitted segment no adjacent pair is a boundary, provided the
open segment already has that property and ends in `prev`. -/
theorem splitGo_chain (gap : ℚ) :
    ∀ (rest : List Msg) (prev : Msg) (current : List Msg),
      current.getLast? = some prev →
      current.Chain' (fun a b => isBoundary a b gap = false) →
      ∀ seg ∈ splitGo gap prev current rest,
        seg.Chain' (fun a b => isBoundary a b gap = false) := by
  intro rest
  induction rest with
  | nil =>
    intro prev current _ hchain seg hseg
    simp only [splitGo, List.mem_singleton] at hseg
    exact hseg ▸ hchain
  | cons cur rest ih =>
    intro prev current hlast hchain seg hseg
    by_cases hb : isBoundary prev cur gap
    · simp only [splitGo, hb, if_true, List.mem_cons] at hseg
      rcases hseg with h | h
      · exact h ▸ hchain
      · exact ih cur [cur] rfl (List.chain'_singleton cur) seg h
    · simp only [splitGo, hb, if_false] at hseg
      refine ih cur (current ++ [cur]) (List.getLast?_concat current) ?_ seg hseg
      refine List.chain'_append.mpr ⟨hchain, List.chain'_singleton cur, ?_⟩
      intro x hx y hy
      rw [hlast, Option.mem_some_iff] at hx
      simp only [List.head?_cons, Option.mem_some_iff] at hy
      subst hx; subst hy
      exact Bool.not_eq_true _ ▸ eq_false_of_ne_true hb

/-- A boundary-free list is never split: the scan emits a single segment. -/
theorem splitGo_of_chain (gap : ℚ) :
    ∀ (rest : List Msg) (prev : Msg) (current : List Msg),
      List.Chain' (fun a b => isBoundary a b gap = false) (prev :: rest) →
      splitGo gap prev current rest = [current ++ rest] := by
  intro rest
  induction rest with
  | nil => intro prev current _; simp [splitGo]
  | cons cur rest ih =>
    intro prev current hchain
    rw [List.chain'_cons] at hchain
    have hb : isBoundary prev cur gap = false := hchain.1
    simp only [splitGo, hb, if_false, Bool.false_eq_true]
    rw [ih cur (current ++ [cur]) hchain.2]
    simp

/-- C9. **Idempotence**: any segment `S` returned by `split_segments` is
already sorted and boundary-free, so running `split_segments` again on `S`
with the same threshold returns exactly one segment equal to `S`. -/
theorem split_segments_idempotent (l : List Msg) (gap : ℚ) (S : List Msg)
    (hS : S ∈ split_segments l gap) :
    split_segments S gap = [S] := by
  rw [split_segments] at hS
  rcases hs : sortMsgs l with _ | ⟨m, rest⟩
  · rw [hs] at hS
    simp [splitTop] at hS
  · rw [hs] at hS
    simp only [splitTop] at hS
    have hne : S ≠ [] :=
      splitGo_ne_nil gap rest m [m] (List.cons_ne_nil _ _) S hS
    have hchain : S.Chain' (fun a b => isBoundary a b gap = false) :=
      splitGo_chain gap rest m [m] rfl (List.chain'_singleton m) S hS
    have hsub : S.Sublist (m :: rest) := by
      have h1 := List.sublist_flatten_of_mem hS
      rwa [splitGo_flatten, List.singleton_append] at h1
    have hsorted : S.Sorted keyLE := by
      have h2 : (m :: rest).Sorted keyLE := hs ▸ sortMsgs_sorted l
      exact h2.sublist hsub
    have hfix : sortMsgs S = S := hsorted.insertionSort_eq
    rw [split_segments, hfix]
    rcases hS0 : S with _ | ⟨m2, rest2⟩
    · exact absurd hS0 hne
    · rw [hS0] at hchain
      simp only [splitTop]
      rw [splitGo_of_chain gap rest2 m2 [m2] hchain]
      simp

/-- C9 witness: the single segment of a one-message thread is itself
re-segmented into exactly one identical segment. -/
theorem split_segments_idempotent_witness :
    split_segments [mkMsg (some roleUser) (some 0)] 1800 =
      [[mkMsg (some roleUser) (some 0)]] :=
  split_segments_idempotent [mkMsg (some roleUser) (some 0)] 1800
    [mkMsg (some roleUser) (some 0)] (by decide)

/-! ## Thread Reconstructor -/

/-- A JSON object field that the code reads with `d.get(k, default)`:
the three observably different states are *missing key*, *key bound to
`null`*, and *key bound to a value*. -/
inductive JField (α : Type) : Type
  | missing : JField α
  | null : JField α
  | val : α → JField α
deriving DecidableEq, Repr

/-- The `author` object; `role = none` models a missing or `null` role
(`author_obj.get("role")` yields `None` in both cases). -/
structure RawAuthor where
  role : Option String
deriving DecidableEq, Repr

/-- The `content` object; `parts = none` models a missing or `null` parts
list (`content_obj.get("parts") or []` maps both to `[]`).  A list element
`none` is a JSON `null` part (dropped); `some s` is a part whose `str()`
rendering is `s`. -/
structure RawContent where
  parts : Option (List (Option String))
deriving DecidableEq, Repr

/-- A raw `create_time` value: `numlike q` is a number or numeric string
that `float()` parses to `q`; `junk` is any value on which `float()`
raises `TypeError`/`ValueError` (caught, yielding an unknown time). -/
inductive RawTimeVal : Type
  | numlike : ℚ → RawTimeVal
  | junk : RawTimeVal
deriving DecidableEq, Repr

/-- The `message` payload.  `author` and `content` are read via
`msg.get(k, {})`, which distinguishes a missing key (default `{}` applies)
from a key bound to `null` (default does not apply, `None` is returned) —
hence `JField`.  `create_time = none` models a missing or `null` value. -/
structure RawMessage where
  author : JField RawAuthor
  content : JField RawContent
  create_time : Option RawTimeVal
deriving DecidableEq, Repr

/-- One raw mapping value.  `parent`/`children`/`message` are read in ways
that collapse missing and `null` (`d.get("parent")`,
`d.get("children") or []`, `d.get("message") or {}`), so `Option`
suffices for them. -/
structure RawNode where
  parent : Option String
  children : Option (List String)
  message : Option RawMessage
deriving DecidableEq, Repr

/-- Python exceptions the reconstruction code can raise. -/
inductive PyErr : Type
  | attributeError : PyErr
deriving DecidableEq, Repr

/-- A processed node as stored in the `nodes` dict. -/
structure Node where
  parent : Option String
  children : List String
  role : Option String
  text : String
  time : Option ℚ
deriving DecidableEq, Repr

/-- Models `msg.get("author", {}).get("role")`: a missing `author` key
falls back to the default `{}` whose `.get("role")` is `None`; an
`author` key bound to `null` returns `None` itself, and `None.get("role")`
raises `AttributeError`. -/
def pyGetRole (msg : Option RawMessage) : Except PyErr (Option String) :=
  match msg with
  | none => Except.ok none
  | some m =>
    match m.author with
    | JField.missing => Except.ok none
    | JField.null => Except.error PyErr.attributeError
    | JField.val a => Except.ok a.role

/-- Models `msg.get("content", {}).get("parts") or []`: missing `content`
defaults to `{}` (so `parts` is `None`, then `[]`); `content` bound
to `null` raises `AttributeError` on `.get("parts")`. -/
def pyGetParts (msg : Option RawMessage) : Except PyErr (List (Option String)) :=
  match msg with
  | none => Except.ok []
  | some m =>
    match m.content with
    | JField.missing => Except.ok []
    | JField.null => Except.error PyErr.attributeError
    | JField.val c => Except.ok (c.parts.getD [])

/-- Models `msg.get("create_time")` followed by `float(ts)` under
`try/except (TypeError, ValueError)`: a missing/`null`/unparsable value
becomes an unknown time, a parsable one its numeric value. -/
def pyTime (msg : Option RawMessage) : Option ℚ :=
  match msg with
  | none => none
  | some m =>
    match m.create_time with
    | none => none
    | some (RawTimeVal.numlike q) => some q
    | some RawTimeVal.junk => none

/-- Separator used to join content parts: the newline of `"\n".join(...)`. -/
def newlineSep : String := "\n"

/-- The node-construction body of the first loop of `reconstruct_threads`:
role, then text (non-`null` parts joined by newline), then time. -/
def mkNode (d : RawNode) : Except PyErr Node := do
  let msg := d.message
  let role ← pyGetRole msg
  let parts ← pyGetParts msg
  let text := String.intercalate newlineSep (parts.filterMap id)
  Except.ok
    { parent := d.parent, children := d.children.getD [],
      role := role, text := text, time := pyTime msg }

/-- The first loop of `reconstruct_threads`: build the `nodes` dict in
mapping order; the first malformed node aborts with its exception. -/
def buildNodes : List (String × RawNode) → Except PyErr (List (String × Node))
  | [] => Except.ok []
  | (mid, d) :: rest => do
    let n ← mkNode d
    let ns ← buildNodes rest
    Except.ok ((mid, n) :: ns)

/-- Does the Python truthiness test `if node.get("role"):` accept this
role?  `None` and the empty string are falsy. -/
def truthyRole : Option String → Bool
  | none => false
  | some s => s ≠ ""

/-- The entry a visited node contributes to the path, if any: only a node
with a truthy role is appended, as `{"role": ..., "text": ..., "time": ...}`. -/
def entryOf (n : Node) : Option Msg :=
  if truthyRole n.role then some { role := n.role, text := n.text, time := n.time }
  else none

/-- The `while cur and cur not in seen:` walk of one leaf, accumulating the
path in visit (leaf-to-root) order.  `fuel` bounds the number of loop
iterations; `none` signals fuel exhaustion, which `walkAux_total` shows
never happens at the fuel `reconstruct_threads` supplies.  The walk stops
when `cur` is falsy (`None` or the empty string), already visited, or
absent from `nodes`. -/
def walkAux (nodes : List (String × Node)) :
    ℕ → Option String → List String → List Msg → Option (List Msg)
  | 0, _, _, _ => none
  | fuel + 1, cur, seen, path =>
    match cur with
    | none => some path
    | some c =>
      if c = "" then some path
      else if c ∈ seen then some path
      else
        match nodes.lookup c with
        | none => some path
        | some n =>
          walkAux nodes fuel n.parent (c :: seen)
            (match entryOf n with
             | some e => path ++ [e]
             | none => path)

/-- The sequence of nodes the walk visits and finds in `nodes`, in visit
order (a specification-side companion of `walkAux`). -/
def walkNodes (nodes : List (String × Node)) :
    ℕ → Option String → List String → List Node
  | 0, _, _ => []
  | fuel + 1, cur, seen =>
    match cur with
    | none => []
    | some c =>
      if c = "" then []
      else if c ∈ seen then []
      else
        match nodes.lookup c with
        | none => []
        | some n => n :: walkNodes nodes fuel n.parent (c :: seen)

/-- The per-leaf loop of `reconstruct_threads`: walk each leaf, reverse the
collected path to root-first order, and keep only non-empty paths. -/
def collectThreads (nodes : List (String × Node)) : List String → List (List Msg)
  | [] => []
  | leaf :: rest =>
    let path := ((walkAux nodes (nodes.length + 1) (some leaf) [] []).getD []).reverse
    (if path.isEmpty then [] else [path]) ++ collectThreads nodes rest

/-- Top level `reconstruct_threads(mapping)`: empty mapping short-circuits to `[]`;
otherwise build nodes, take the leaves (nodes with empty `children`) in
mapping order, and collect their walks. -/
def reconstruct_threads (mapping : List (String × RawNode)) :
    Except PyErr (List (List Msg)) :=
  if mapping.isEmpty then Except.ok []
  else do
    let nodes ← buildNodes mapping
    let leaves := (nodes.filter (fun p => p.2.children.isEmpty)).map Prod.fst
    Except.ok (collectThreads nodes leaves)

/-! ## Termination of the leaf walk -/

/-- Keys of the `nodes` dict not yet in the visited set: the walk's
decreasing measure. -/
def unseenKeys (nodes : List (String × Node)) (seen : List String) : List String :=
  (nodes.map Prod.fst).filter (fun k => decide (k ∉ seen))

/-- Filtering with a predicate that fails on some member strictly shrinks
the list. -/
theorem length_filter_lt {α : Type} (p : α → Bool) :
    ∀ (l : List α) (c : α), c ∈ l → p c = false →
      (l.filter p).length < l.length := by
  intro l
  induction l with
  | nil => intro c hc; exact absurd hc (List.not_mem_nil c)
  | cons a l ih =>
    intro c hc hp
    rcases List.mem_cons.mp hc with rfl | hc
    · rw [List.filter_cons_of_neg (by simp [hp])]
      exact Nat.lt_succ_of_le (List.length_filter_le p l)
    · by_cases ha : p a
      · rw [List.filter_cons_of_pos ha]
        exact Nat.succ_lt_succ (ih c hc hp)
      · rw [List.filter_cons_of_neg (by simpa using ha)]
        exact Nat.lt_succ_of_lt (ih c hc hp)

/-- A successful dict lookup means the key is among the dict's keys. -/
theorem lookup_mem_keys {β : Type} :
    ∀ (nodes : List (String × β)) (c : String) (n : β),
      nodes.lookup c = some n → c ∈ nodes.map Prod.fst := by
  intro nodes
  induction nodes with
  | nil => intro c n h; exact Option.noConfusion h
  | cons p rest ih =>
    intro c n h
    rw [List.lookup] at h
    rcases hbeq : c == p.1 with _ | _
    · rw [hbeq] at h
      exact List.mem_cons.mpr (Or.inr (ih c n h))
    · exact List.mem_cons.mpr (Or.inl (eq_of_beq hbeq))

/-- Adding a fresh key to the visited set strictly shrinks the unseen-key
measure. -/
theorem unseenKeys_decrease (nodes : List (String × Node)) (seen : List String)
    (c : String) (hk : c ∈ nodes.map Prod.fst) (hs : c ∉ seen) :
    (unseenKeys nodes (c :: seen)).length < (unseenKeys nodes seen).length := by
  have hpred : ∀ k, (decide (k ∉ c :: seen)) =
      (decide (k ≠ c) && decide (k ∉ seen)) := by
    intro k
    by_cases h1 : k = c <;> by_cases h2 : k ∈ seen <;> simp [h1, h2]
  rw [unseenKeys, unseenKeys, List.filter_congr (fun a _ => hpred a),
    ← List.filter_filter]
  exact length_filter_lt _ _ c
    (List.mem_filter.mpr ⟨hk, by simpa using hs⟩) (by simp)

/-- With more fuel than unseen keys, the walk always finishes: each loop
iteration consumes a fresh key of the `nodes` dict (the visited-set guard
rules out revisits), so the iteration count is bounded no matter how the
`parent` links are arranged — cyclic chains included. -/
theorem walkAux_total (nodes : List (String × Node)) :
    ∀ (fuel : ℕ) (seen : List String) (cur : Option String) (path : List Msg),
      (unseenKeys nodes seen).length < fuel →
      (walkAux nodes fuel cur seen path).isSome = true := by
  intro fuel
  induction fuel with
  | zero => intro seen cur path h; exact absurd h (Nat.not_lt_zero _)
  | succ fuel ih =>
    intro seen cur path h
    match cur with
    | none => rfl
    | some c =>
      rw [walkAux]
      by_cases he : c = ""
      · simp [he]
      · rw [if_neg he]
        by_cases hseen : c ∈ seen
        · simp [hseen]
        · rw [if_neg hseen]
          rcases hl : nodes.lookup c with _ | n
          · rfl
          · exact ih (c :: seen) n.parent _
              (Nat.lt_of_lt_of_le
                (unseenKeys_decrease nodes seen c (lookup_mem_keys nodes c n hl) hseen)
                (Nat.lt_succ_iff.mp h))

/-- C7. **Cycle-safe termination**: with the fuel `reconstruct_threads`
supplies (`nodes.length + 1`) the upward walk of any start id over any
`nodes` dict — including ones whose `parent` links form a cycle, such as
A → B → A — completes and yields a path (the fuel-exhaustion sentinel
`none` is unreachable).  Each iteration first checks the visited set and
then extends it, so no node id is processed twice, and the walk halts at a
falsy id (`None` or `""`), an id absent from the dict, or an
already-visited id. -/
theorem walk_terminates (nodes : List (String × Node)) (cur : Option String)
    (path : List Msg) :
    (walkAux nodes (nodes.length + 1) cur [] path).isSome = true := by
  refine walkAux_total nodes (nodes.length + 1) [] cur path ?_
  have h1 : (unseenKeys nodes []).length ≤ (nodes.map Prod.fst).length :=
    List.length_filter_le _ _
  rw [List.length_map] at h1
  exact Nat.lt_succ_of_le h1

/-! ## Malformed-node behaviour of the Thread Reconstructor -/

/-- A one-node mapping whose `message.author` is present but `null`
(`content` missing, everything else absent): the JSON value
`{"a": {"message": {"author": null}}}`. -/
def nullAuthorMapping : List (String × RawNode) :=
  [("a", { parent := none, children := none,
           message := some { author := JField.null, content := JField.missing,
                             create_time := none } })]

/-- C1 evidence. On a node whose `author` sub-field is `null` (rather than
missing), `msg.get("author", {})` returns `None` — the default only covers
a *missing* key — and `None.get("role")` raises `AttributeError`, aborting
the whole reconstruction instead of degrading to an absent role. -/
theorem reconstruct_null_author_raises :
    reconstruct_threads nullAuthorMapping = Except.error PyErr.attributeError := rfl

/-- The empty string, as a present-but-falsy role value. -/
def emptyStr : String := ""

/-- A one-node mapping whose node has a *present but empty* role:
`{"a": {"message": {"author": {"role": ""}}}}`. -/
def emptyRoleMapping : List (String × RawNode) :=
  [("a", { parent := none, children := none,
           message := some { author := JField.val { role := some emptyStr },
                             content := JField.missing, create_time := none } })]

/-- C8 counterexample: the walk appends an entry only under the Python
*truthiness* test `if node.get("role"):`, so a node whose role is present
but the empty string is skipped; the single-node thread then has no
entries and is discarded, yielding no threads at all — while the claim
demands one thread with an empty-string-role entry.  The second conjunct
shows the role really is present (`some ""`) on the built node. -/
theorem reconstruct_empty_role_skipped :
    reconstruct_threads emptyRoleMapping = Except.ok [] ∧
    (buildNodes emptyRoleMapping).map (fun ns => ns.map (fun p => p.2.role)) =
      Except.ok [some emptyStr] :=
  ⟨rfl, rfl⟩

/-- The path the walk accumulates is exactly the `entryOf`-image of the
visited nodes appended to the initial path. -/
theorem walkAux_filterMap (nodes : List (String × Node)) :
    ∀ (fuel : ℕ) (cur : Option String) (seen : List String) (path p : List Msg),
      walkAux nodes fuel cur seen path = some p →
      p = path ++ (walkNodes nodes fuel cur seen).filterMap entryOf := by
  intro fuel
  induction fuel with
  | zero => intro cur seen path p h; exact Option.noConfusion h
  | succ fuel ih =>
    intro cur seen path p h
    match cur with
    | none =>
      rw [walkAux] at h
      rw [walkNodes]
      simp only [List.filterMap_nil, List.append_nil]
      exact (Option.some.injEq _ _).mp h.symm
    | some c =>
      rw [walkAux] at h
      rw [walkNodes]
      by_cases he : c = ""
      · rw [if_pos he] at h
        rw [if_pos he]
        simp only [List.filterMap_nil, List.append_nil]
        exact (Option.some.injEq _ _).mp h.symm
      · rw [if_neg he] at h
        rw [if_neg he]
        by_cases hseen : c ∈ seen
        · rw [if_pos hseen] at h
          rw [if_pos hseen]
          simp only [List.filterMap_nil, List.append_nil]
          exact (Option.some.injEq _ _).mp h.symm
        · rw [if_neg hseen] at h
          rw [if_neg hseen]
          rcases hl : nodes.lookup c with _ | n
          · rw [hl] at h
            simp only [List.filterMap_nil, List.append_nil]
            exact (Option.some.injEq _ _).mp h.symm
          · rw [hl] at h
            dsimp only at h ⊢
            rcases hE : entryOf n with _ | e
            · rw [hE] at h
              have := ih n.parent (c :: seen) path p h
              simpa [List.filterMap_cons, hE] using this
            · rw [hE] at h
              have := ih n.parent (c :: seen) (path ++ [e]) p h
              simpa [List.filterMap_cons, hE] using this

/-- The collector `collectThreads` never emits an empty thread. -/
theorem nil_not_mem_collectThreads (nodes : List (String × Node)) :
    ∀ (leaves : List String), [] ∉ collectThreads nodes leaves := by
  intro leaves
  induction leaves with
  | nil => simp [collectThreads]
  | cons leaf rest ih =>
    rw [collectThreads]
    intro hmem
    rcases List.mem_append.mp hmem with h | h
    · rcases hp : (((walkAux nodes (nodes.length + 1) (some leaf) [] []).getD
        []).reverse).isEmpty with _ | _
      · rw [hp, if_neg (by simp)] at h
        rw [List.mem_singleton] at h
        rw [← h] at hp
        simp at hp
      · rw [hp, if_pos rfl] at h
        exact List.not_mem_nil _ h
    · exact ih h

/-- C8 (amended). Exactly the visited nodes with a **truthy** role — present
and non-empty, the Python test `if node.get("role"):` — contribute a
`{role, text, time}` entry to the walk's path, in visit order (reversed to
root-first by the caller); nodes with an absent *or empty-string* role are
skipped while traversal continues through them; and a thread with zero
truthy-role nodes is discarded, so `reconstruct_threads` never returns an
empty thread. -/
theorem walk_appends_truthy_roles (nodes : List (String × Node))
    (cur : Option String) (p : List Msg)
    (h : walkAux nodes (nodes.length + 1) cur [] [] = some p) :
    p = (walkNodes nodes (nodes.length + 1) cur []).filterMap entryOf ∧
    ∀ (mapping : List (String × RawNode)) (threads : List (List Msg)),
      reconstruct_threads mapping = Except.ok threads → [] ∉ threads := by
  constructor
  · simpa using walkAux_filterMap nodes (nodes.length + 1) cur [] [] p h
  · intro mapping threads hr
    rw [reconstruct_threads] at hr
    by_cases hm : mapping.isEmpty
    · rw [if_pos hm] at hr
      have : threads = [] := ((Except.ok.injEq _ _).mp hr).symm
      rw [this]
      exact List.not_mem_nil _
    · rw [if_neg hm] at hr
      rcases hb : buildNodes mapping with e | ns
      · rw [hb] at hr
        exact Except.noConfusion hr
      · rw [hb] at hr
        have : threads = collectThreads ns
            ((ns.filter (fun q => q.2.children.isEmpty)).map Prod.fst) :=
          ((Except.ok.injEq _ _).mp hr).symm
        rw [this]
        exact nil_not_mem_collectThreads ns _

/-- Leaf id of the walk-demo dict. -/
def idA : String := "a"

/-- Parent id of the walk-demo dict. -/
def idB : String := "b"

/-- Walk-demo dict for the C8 witness: leaf `a` has a truthy role, its
parent `b` is structural-only (absent role). -/
def demoNodes : List (String × Node) :=
  [(idA, { parent := some idB, children := [], role := some roleUser,
           text := "hi", time := some 100 }),
   (idB, { parent := none, children := [idA], role := none,
           text := "", time := none })]

/-- C8 amended witness: walking leaf `a` of `demoNodes` visits `a` then the
role-less `b`; only `a` contributes an entry. -/
theorem walk_appends_truthy_roles_witness :
    ([{ role := some roleUser, text := "hi", time := some 100 }] : List Msg) =
      (walkNodes demoNodes (demoNodes.length + 1) (some idA) []).filterMap entryOf ∧
    ∀ (mapping : List (String × RawNode)) (threads : List (List Msg)),
      reconstruct_threads mapping = Except.ok threads → [] ∉ threads :=
  walk_appends_truthy_roles demoNodes (some idA)
    [{ role := some roleUser, text := "hi", time := some 100 }] (by decide)

end Luma
